import Mathlib

/-!
Verification of the Game-Theory simulator.

Shallow embedding of the two Python modules of the repository:

* `Game_Theory_Sim.py` — normal-form games, pure-Nash-equilibrium solver,
  stochastic repeated-play simulation, and interactive game construction.
* `sim.py` — iterated two-player matches between history-aware strategy
  functions and a round-robin tournament.

Python dictionaries are embedded as association lists with an `Option`-valued
lookup (a missing key, which raises `KeyError` in Python, surfaces as `none`);
numeric payoffs are embedded as `Int`; `for` loops carrying mutable state are
embedded as structural recursions threading that state.  Definitions come
first, followed by all lemmas and theorems.
-/

namespace GameTheory

/-- Lookup in an association list, embedding Python dict indexing `d[k]`
(`none` models a `KeyError`).  All dictionaries built by the embedded code
have distinct keys, so first-match lookup agrees with Python semantics. -/
def dictLookup {α β : Type} [DecidableEq α] : List (α × β) → α → Option β
  | [], _ => none
  | e :: rest, k => if e.1 = k then some e.2 else dictLookup rest k

/-- Python `itertools.product` over a list of lists, in Python's order (rightmost
factor varies fastest). -/
def listProd {α : Type} : List (List α) → List (List α)
  | [] => [[]]
  | l :: ls => l.flatMap (fun x => (listProd ls).map (fun q => x :: q))

/-- The read `payoffs[prof][i]` — the `i`-th component of the payoff vector stored for
profile `prof`.  The defaults are never consulted for the complete,
arity-correct tables the theorems assume. -/
def payoffEntry (payoffs : List (List String × List Int)) (prof : List String)
    (i : Nat) : Int :=
  ((dictLookup payoffs prof).getD []).getD i 0

/-- The solver `pure_nash_equilibria(players, strategies, payoffs)` from
`Game_Theory_Sim.py` (lines 82–102).  The Python `for i, p in
enumerate(players)` loop is rendered as a scan over `i < players.length` with
`p = players[i]`; the two `break`s are the short-circuiting of `List.any`. -/
def pure_nash_equilibria (players : List String)
    (strategies : String → List String)
    (payoffs : List (List String × List Int)) : List (List String) :=
  (listProd (players.map strategies)).filter (fun prof =>
    ! (List.range players.length).any (fun i =>
        (strategies (players.getD i "")).any (fun alt =>
          decide (alt ≠ prof.getD i "") &&
          decide (payoffEntry payoffs (prof.set i alt) i >
                  payoffEntry payoffs prof i))))

/-- Players of `prisoners_dilemma()` (`Game_Theory_Sim.py` lines 19–28). -/
def pd_players : List String := ["Player 1", "Player 2"]

/-- Strategy dictionary of `prisoners_dilemma()`: every player maps to
`["Cooperate", "Defect"]`. -/
def pd_strategies : String → List String := fun _ => ["Cooperate", "Defect"]

/-- Payoff dictionary of `prisoners_dilemma()`. -/
def pd_payoffs : List (List String × List Int) :=
  [ (["Cooperate", "Cooperate"], [3, 3])
  , (["Cooperate", "Defect"], [0, 5])
  , (["Defect", "Cooperate"], [5, 0])
  , (["Defect", "Defect"], [1, 1]) ]

/-! ### Shape of the solver's return value (C5) -/

/-- Untyped Python values, as far as the solver's return value is concerned:
strings, numbers and tuples. -/
inductive PyVal where
  | s (v : String)
  | n (v : Int)
  | tup (vs : List PyVal)

/-- The dynamic value of a strategy profile: a tuple of strategy-name
strings. -/
def pyOfProfile (p : List String) : PyVal := PyVal.tup (p.map PyVal.s)

/-- The dynamic value of a payoff vector: a tuple of numbers. -/
def pyOfPayoff (v : List Int) : PyVal := PyVal.tup (v.map PyVal.n)

/-- The list of Python values `pure_nash_equilibria` actually returns: the
source appends the bare profile `prof` (line 101), so each element is a
profile tuple. -/
def pureNashResultPy (players : List String)
    (strategies : String → List String)
    (payoffs : List (List String × List Int)) : List PyVal :=
  (pure_nash_equilibria players strategies payoffs).map pyOfProfile

/-- The paired equilibrium result described by the spec: each equilibrium
profile together with the payoff table's vector for it (the source's `main`
produces this pairing by a lookup at reporting time, line 154). -/
def paired_equilibria (players : List String)
    (strategies : String → List String)
    (payoffs : List (List String × List Int)) :
    List (List String × List Int) :=
  (pure_nash_equilibria players strategies payoffs).map
    (fun p => (p, (dictLookup payoffs p).getD []))

/-! ## `sim.py` — iterated matches between strategy functions -/

/-- A strategy function: `(my_history, opp_history) ↦ move` (`sim.py`
lines 24–39). -/
abbrev Strat := List String → List String → String

/-- The table `PD_PAYOFFS` (`sim.py` lines 17–22). -/
def PD_PAYOFFS : List ((String × String) × (Int × Int)) :=
  [ (("C", "C"), (3, 3))
  , (("C", "D"), (0, 5))
  , (("D", "C"), (5, 0))
  , (("D", "D"), (1, 1)) ]

/-- Strategy `always_cooperate` (`sim.py` lines 27–28). -/
def always_cooperate : Strat := fun _ _ => "C"

/-- Strategy `always_defect` (`sim.py` lines 30–31). -/
def always_defect : Strat := fun _ _ => "D"

/-- Strategy `tit_for_tat` (`sim.py` lines 33–36): cooperate on an empty opponent
history, otherwise replay `opp_hist[-1]`. -/
def tit_for_tat : Strat := fun _ opp_hist =>
  match opp_hist.getLast? with
  | none => "C"
  | some m => m

/-- The per-match mutable state of `play_rounds`: the two append-only move
histories and the two running scores. -/
structure MatchState where
  history1 : List String
  history2 : List String
  score1 : Int
  score2 : Int
deriving DecidableEq

/-- One iteration of the `for` loop of `play_rounds` (`sim.py` lines 51–58):
query both strategies on the histories so far, look up the payoff for the
ordered move pair (`none` models the `KeyError`), accumulate scores, then
append each move to its owner's history. -/
def matchStep (strat1 strat2 : Strat)
    (payoff_matrix : List ((String × String) × (Int × Int)))
    (st : MatchState) : Option MatchState :=
  let move1 := strat1 st.history1 st.history2
  let move2 := strat2 st.history2 st.history1
  match dictLookup payoff_matrix (move1, move2) with
  | none => none
  | some payoff =>
      some ⟨st.history1 ++ [move1], st.history2 ++ [move2],
            st.score1 + payoff.1, st.score2 + payoff.2⟩

/-- The loop state after the first `k` rounds of a match, starting from empty
histories and zero scores; `none` once any round's payoff lookup failed. -/
def stateAfter (strat1 strat2 : Strat)
    (payoff_matrix : List ((String × String) × (Int × Int))) :
    Nat → Option MatchState
  | 0 => some ⟨[], [], 0, 0⟩
  | k + 1 =>
      (stateAfter strat1 strat2 payoff_matrix k).bind
        (matchStep strat1 strat2 payoff_matrix)

/-- The match runner `play_rounds(strat1, strat2, rounds, payoff_matrix)` (`sim.py` lines
46–60): run the loop for `rounds` rounds and return the two scores. -/
def play_rounds (strat1 strat2 : Strat) (rounds : Nat)
    (payoff_matrix : List ((String × String) × (Int × Int))) :
    Option (Int × Int) :=
  (stateAfter strat1 strat2 payoff_matrix rounds).map
    (fun st => (st.score1, st.score2))

/-- The ordered pair of moves chosen in round `k` (1-based), i.e. the values
of `move1`/`move2` computed from the histories accumulated over rounds
`1..k-1`; `none` when an earlier round already aborted the match. -/
def roundMoves (strat1 strat2 : Strat)
    (payoff_matrix : List ((String × String) × (Int × Int))) (k : Nat) :
    Option (String × String) :=
  (stateAfter strat1 strat2 payoff_matrix (k - 1)).map
    (fun st => (strat1 st.history1 st.history2,
                strat2 st.history2 st.history1))

/-! ### Tournament (`sim.py` lines 63–76) -/

/-- The update `totals[name] += v`: every update in the source targets a key created at
initialisation, so updating the (unique) matching entry in place is the
Python dict semantics. -/
def addTo (t : List (String × Int)) (name : String) (v : Int) :
    List (String × Int) :=
  t.map (fun e => if e.1 = name then (e.1, e.2 + v) else e)

/-- The read `totals[name]` — reads of the totals dict (only ever queried at keys
present since initialisation). -/
def lookupTotal (t : List (String × Int)) (name : String) : Int :=
  (dictLookup t name).getD 0

/-- Python `itertools.combinations(items, 2)`: every index pair `i < j`, in
Python's order. -/
def combinations {α : Type} : List α → List (α × α)
  | [] => []
  | x :: xs => xs.map (fun y => (x, y)) ++ combinations xs

/-- The first `for` loop of `tournament` (`sim.py` lines 67–70): one Mode-B
match per pair, crediting each side's score to its own total; a failed match
(`KeyError`) aborts the tournament. -/
def pairPhase (r : Nat) :
    List ((String × Strat) × (String × Strat)) → List (String × Int) →
      Option (List (String × Int))
  | [], totals => some totals
  | pr :: rest, totals =>
      match play_rounds pr.1.2 pr.2.2 r PD_PAYOFFS with
      | none => none
      | some s =>
          pairPhase r rest (addTo (addTo totals pr.1.1 s.1) pr.2.1 s.2)

/-- The second `for` loop of `tournament` (`sim.py` lines 72–74): each
strategy plays itself and only its own (first-side) score is added. -/
def selfPhase (r : Nat) :
    List (String × Strat) → List (String × Int) →
      Option (List (String × Int))
  | [], totals => some totals
  | ns :: rest, totals =>
      match play_rounds ns.2 ns.2 r PD_PAYOFFS with
      | none => none
      | some s => selfPhase r rest (addTo totals ns.1 s.1)

/-- The orchestrator `tournament(strategies, rounds_per_game)` (`sim.py` lines 63–76):
initialise every registered name to 0, run all unordered pairs, then all
self-matches, and return the totals. -/
def tournament (strategies : List (String × Strat))
    (rounds_per_game : Nat) : Option (List (String × Int)) :=
  match pairPhase rounds_per_game (combinations strategies)
      (strategies.map (fun ns => (ns.1, (0 : Int)))) with
  | none => none
  | some totals => selfPhase rounds_per_game strategies totals

/-- A strategy honouring the move alphabet of the stage game (the contract
strategy functions must satisfy, per the registry's docstring). -/
def playsLegalMoves (s : Strat) : Prop :=
  ∀ h1 h2, s h1 h2 = "C" ∨ s h1 h2 = "D"

/-- The score pair of the Mode-B match the tournament plays for an ordered
registry pair (the default is never consulted for legal strategies). -/
def pairScore (pr : (String × Strat) × (String × Strat)) (r : Nat) :
    Int × Int :=
  (play_rounds pr.1.2 pr.2.2 r PD_PAYOFFS).getD (0, 0)

/-- A strategy's own-side score in its self-play match. -/
def selfScore (s : Strat) (r : Nat) : Int :=
  ((play_rounds s s r PD_PAYOFFS).getD (0, 0)).1

/-- The points `name` collects over all cross pairings of the tournament. -/
def crossTotal (reg : List (String × Strat)) (r : Nat) (name : String) :
    Int :=
  ((combinations reg).map (fun pr =>
      (if pr.1.1 = name then (pairScore pr r).1 else 0) +
      (if pr.2.1 = name then (pairScore pr r).2 else 0))).sum

/-! ## `Game_Theory_Sim.py` — stochastic repeated play (`simulate`,
lines 107–118) -/

/-- Python `random.choice(options)` with the random draw injected as `k`: always an
element of a nonempty `options` (Python raises on an empty sequence). -/
def chooseStrategy (options : List String) (k : Nat) : String :=
  options.getD (k % options.length) ""

/-- The draw `tuple(random.choice(strategies[p]) for p in players)` (line 112), the
counter `i` keying the injected randomness per player position. -/
def profileFrom (strategies : String → List String)
    (rng : Nat → Nat → Nat) (r : Nat) :
    List String → Nat → List String
  | [], _ => []
  | p :: ps, i =>
      chooseStrategy (strategies p) (rng r i) ::
        profileFrom strategies rng r ps (i + 1)

/-- The strategy profile drawn in round `r`. -/
def roundProfile (players : List String)
    (strategies : String → List String) (rng : Nat → Nat → Nat)
    (r : Nat) : List String :=
  profileFrom strategies rng r players 0

/-- The loop `for i, p in enumerate(players): total_scores[p] += payoff[i]`
(lines 115–116). -/
def addPayoffs : List String → List Int → List (String × Int) →
    List (String × Int)
  | [], _, totals => totals
  | p :: ps, payoff, totals =>
      addPayoffs ps (payoff.drop 1) (addTo totals p (payoff.headD 0))

/-- The `for r in range(repetitions)` loop of `simulate` (lines 111–116),
threading the history and the running totals; `none` models the `KeyError`
of a payoff lookup at a missing profile. -/
def simLoop (players : List String) (strategies : String → List String)
    (payoffs : List (List String × List Int)) (rng : Nat → Nat → Nat) :
    Nat → Nat → List (List String × List Int) → List (String × Int) →
      Option (List (List String × List Int) × List (String × Int))
  | _, 0, hist, totals => some (hist, totals)
  | r, rem + 1, hist, totals =>
      match dictLookup payoffs (roundProfile players strategies rng r) with
      | none => none
      | some payoff =>
          simLoop players strategies payoffs rng (r + 1) rem
            (hist ++ [(roundProfile players strategies rng r, payoff)])
            (addPayoffs players payoff totals)

/-- The runner `simulate(players, strategies, payoffs, repetitions)` (lines 107–118):
history starts empty, totals start at zero for every player. -/
def simulate (players : List String) (strategies : String → List String)
    (payoffs : List (List String × List Int)) (repetitions : Nat)
    (rng : Nat → Nat → Nat) :
    Option (List (List String × List Int) × List (String × Int)) :=
  simLoop players strategies payoffs rng 0 repetitions []
    (players.map (fun p => (p, (0 : Int))))

/-- The contribution of one payoff vector to the total of `m`: its
component at each position where the player list holds `m`. -/
def componentSum : List String → List Int → String → Int
  | [], _, _ => 0
  | p :: ps, payoff, m =>
      (if p = m then payoff.headD 0 else 0) +
        componentSum ps (payoff.drop 1) m

/-! ## `Game_Theory_Sim.py` — interactive game construction (`input_game`,
lines 57–77) -/

/-- The list `DEFAULT_STRATEGIES` (line 55). -/
def DEFAULT_STRATEGIES : List String := ["Cooperate", "Defect"]

/-- The names `players = [f"Player {i+1}" for i in range(num_players)]` (line 59). -/
def playerNames (n : Nat) : List String :=
  (List.range n).map (fun i => "Player " ++ toString (i + 1))

/-- The payoff-entry loop of `input_game` (lines 70–75): one parsed input
vector per profile, in product order.  A vector whose length differs from
the player count raises `ValueError`, and running out of input raises at
the `input()` call — both during construction, before any lookup.  Numeric
payoffs are embedded as `Int`. -/
def fillPayoffs (n : Nat) :
    List (List String) → List (List Int) →
      Except String (List (List String × List Int))
  | [], _ => .ok []
  | _ :: _, [] => .error "EOFError"
  | prof :: profs, v :: vs =>
      if v.length ≠ n then
        .error "Number of payoffs must match number of players"
      else
        match fillPayoffs n profs vs with
        | .error e => .error e
        | .ok rest => .ok ((prof, v) :: rest)

/-- The constructor `input_game()` (lines 57–77), the interactive inputs supplied as the
list of parsed payoff vectors: derive the player names, give every player
the default strategy set, and read one payoff vector for every profile of
the full Cartesian product. -/
def input_game (num_players : Nat) (inputs : List (List Int)) :
    Except String
      (List String × (String → List String) ×
        List (List String × List Int)) :=
  match fillPayoffs num_players
      (listProd ((playerNames num_players).map
        (fun _ => DEFAULT_STRATEGIES))) inputs with
  | .error e => .error e
  | .ok payoffs =>
      .ok (playerNames num_players, fun _ => DEFAULT_STRATEGIES, payoffs)

/-! ## Theorems -/

/-- C1: a profile is returned by `pure_nash_equilibria` exactly when it lies
in the full Cartesian product of the strategy sets and no player `i` has an
alternative strategy `alt ≠ prof[i]` whose unilateral deviation yields a
strictly greater `i`-th payoff; equal alternative payoffs (ties) do not
disqualify a profile. -/
theorem pure_nash_equilibria_mem_iff (players : List String)
    (strategies : String → List String)
    (payoffs : List (List String × List Int)) (prof : List String)
    (hcomp : ∀ q ∈ listProd (players.map strategies),
      (dictLookup payoffs q).isSome) :
    prof ∈ pure_nash_equilibria players strategies payoffs ↔
      prof ∈ listProd (players.map strategies) ∧
      ∀ i, i < players.length →
        ∀ alt ∈ strategies (players.getD i ""), alt ≠ prof.getD i "" →
          payoffEntry payoffs (prof.set i alt) i ≤
            payoffEntry payoffs prof i := by
  clear hcomp
  rw [pure_nash_equilibria, List.mem_filter]
  refine and_congr_right (fun _ => ?_)
  rw [Bool.not_eq_true', List.any_eq_false]
  constructor
  · intro h i hi alt halt hne
    have := h i (List.mem_range.mpr hi)
    rw [Bool.not_eq_true, List.any_eq_false] at this
    have h2 := this alt halt
    simp only [Bool.and_eq_true, decide_eq_true_eq, not_and] at h2
    exact not_lt.mp (h2 hne)
  · intro h i hi
    rw [Bool.not_eq_true, List.any_eq_false]
    intro alt halt
    simp only [Bool.and_eq_true, decide_eq_true_eq, not_and]
    intro hne
    exact not_lt.mpr (h i (List.mem_range.mp hi) alt halt hne)

/-- Witness for C1 at the Prisoner's Dilemma game and the profile
`(Defect, Defect)`. -/
theorem pure_nash_equilibria_mem_iff_witness :
    (∀ q ∈ listProd (pd_players.map pd_strategies),
      (dictLookup pd_payoffs q).isSome) ∧
    (["Defect", "Defect"] ∈
        pure_nash_equilibria pd_players pd_strategies pd_payoffs ↔
      ["Defect", "Defect"] ∈ listProd (pd_players.map pd_strategies) ∧
      ∀ i, i < pd_players.length →
        ∀ alt ∈ pd_strategies (pd_players.getD i ""),
          alt ≠ (["Defect", "Defect"] : List String).getD i "" →
            payoffEntry pd_payoffs
                ((["Defect", "Defect"] : List String).set i alt) i ≤
              payoffEntry pd_payoffs ["Defect", "Defect"] i) :=
  ⟨by decide,
   pure_nash_equilibria_mem_iff pd_players pd_strategies pd_payoffs
     ["Defect", "Defect"] (by decide)⟩

/-- C9: for the Prisoner's Dilemma game of the source, the solver returns
exactly the single profile `(Defect, Defect)`, and the payoff table's value
at that profile is `(1, 1)`. -/
theorem prisoners_dilemma_unique_equilibrium :
    pure_nash_equilibria pd_players pd_strategies pd_payoffs =
      [["Defect", "Defect"]] ∧
    dictLookup pd_payoffs ["Defect", "Defect"] = some [1, 1] := by
  constructor <;> rfl

/-- C5 counterexample: on the Prisoner's Dilemma the solver's returned list
is `[("Defect", "Defect")]` — a bare profile tuple — and that value is not a
pair `(profile, payoff-vector)` for any profile and payoff vector, so the
result does not pair profiles with payoffs. -/
theorem pure_nash_result_not_paired :
    pureNashResultPy pd_players pd_strategies pd_payoffs =
      [PyVal.tup [PyVal.s "Defect", PyVal.s "Defect"]] ∧
    ∀ p v, PyVal.tup [PyVal.s "Defect", PyVal.s "Defect"] ≠
      PyVal.tup [pyOfProfile p, pyOfPayoff v] := by
  refine ⟨rfl, ?_⟩
  intro p v h
  simp only [PyVal.tup.injEq, List.cons.injEq] at h
  exact PyVal.noConfusion h.1

/-- C5 amended: the solver returns bare equilibrium profiles; pairing each
returned profile with the table's payoff vector (as the reporting layer
does) yields exactly the `(profile, payoff)` pairs the spec describes, and
projecting those pairs to their first components recovers the solver's
output. -/
theorem paired_equilibria_spec (players : List String)
    (strategies : String → List String)
    (payoffs : List (List String × List Int))
    (hcomp : ∀ q ∈ listProd (players.map strategies),
      (dictLookup payoffs q).isSome) :
    (paired_equilibria players strategies payoffs).map Prod.fst =
      pure_nash_equilibria players strategies payoffs ∧
    ∀ pv ∈ paired_equilibria players strategies payoffs,
      dictLookup payoffs pv.1 = some pv.2 := by
  constructor
  · rw [paired_equilibria, List.map_map]
    exact List.map_id _
  · intro pv hpv
    rw [paired_equilibria, List.mem_map] at hpv
    obtain ⟨p, hp, rfl⟩ := hpv
    have hmem : p ∈ listProd (players.map strategies) :=
      (List.mem_filter.mp hp).1
    obtain ⟨v, hv⟩ := Option.isSome_iff_exists.mp (hcomp p hmem)
    simp [hv]

/-- Witness for the amended C5 at the Prisoner's Dilemma game. -/
theorem paired_equilibria_spec_witness :
    (∀ q ∈ listProd (pd_players.map pd_strategies),
      (dictLookup pd_payoffs q).isSome) ∧
    (paired_equilibria pd_players pd_strategies pd_payoffs).map Prod.fst =
      pure_nash_equilibria pd_players pd_strategies pd_payoffs ∧
    ∀ pv ∈ paired_equilibria pd_players pd_strategies pd_payoffs,
      dictLookup pd_payoffs pv.1 = some pv.2 :=
  ⟨by decide,
   paired_equilibria_spec pd_players pd_strategies pd_payoffs (by decide)⟩

/-- C10: a zero-round match returns the scores `(0, 0)` for every pair of
strategy functions and every payoff table — the result does not depend on
the strategy functions and no error can arise. -/
theorem play_rounds_zero (strat1 strat2 : Strat)
    (payoff_matrix : List ((String × String) × (Int × Int))) :
    play_rounds strat1 strat2 0 payoff_matrix = some (0, 0) := rfl

/-- After `k` completed rounds, each history has length `k` and its `j`-th
entry is exactly the move its owner chose in round `j + 1`. -/
theorem stateAfter_histories (strat1 strat2 : Strat)
    (payoff_matrix : List ((String × String) × (Int × Int))) (k : Nat)
    (st : MatchState)
    (h : stateAfter strat1 strat2 payoff_matrix k = some st) :
    st.history1.length = k ∧ st.history2.length = k ∧
    ∀ j, j < k →
      ∃ mv, roundMoves strat1 strat2 payoff_matrix (j + 1) = some mv ∧
        st.history1.getD j "" = mv.1 ∧ st.history2.getD j "" = mv.2 := by
  induction k generalizing st with
  | zero =>
      simp only [stateAfter, Option.some.injEq] at h
      subst h
      exact ⟨rfl, rfl, fun j hj => absurd hj (Nat.not_lt_zero j)⟩
  | succ k ih =>
      rw [stateAfter] at h
      rcases Option.bind_eq_some.mp h with ⟨st', hst', hstep⟩
      obtain ⟨hl1, hl2, hprev⟩ := ih st' hst'
      simp only [matchStep] at hstep
      cases hpay : dictLookup payoff_matrix
          (strat1 st'.history1 st'.history2,
           strat2 st'.history2 st'.history1) with
      | none => rw [hpay] at hstep; cases hstep
      | some payoff =>
          rw [hpay] at hstep
          simp only [Option.some.injEq] at hstep
          subst hstep
          refine ⟨by simp [hl1], by simp [hl2], ?_⟩
          intro j hj
          rcases Nat.lt_succ_iff_lt_or_eq.mp hj with hj' | hj'
          · obtain ⟨mv, hmv, he1, he2⟩ := hprev j hj'
            refine ⟨mv, hmv, ?_, ?_⟩
            · rw [← he1]; exact List.getD_append _ _ _ _ (hl1 ▸ hj')
            · rw [← he2]; exact List.getD_append _ _ _ _ (hl2 ▸ hj')
          · subst hj'
            refine ⟨(strat1 st'.history1 st'.history2,
                     strat2 st'.history2 st'.history1), ?_, ?_, ?_⟩
            · rw [roundMoves]
              simp only [Nat.add_sub_cancel, hst', Option.map_some']
            · show (st'.history1 ++
                  [strat1 st'.history1 st'.history2]).getD j "" = _
              rw [List.getD_append_right _ _ _ _ (le_of_eq hl1), hl1,
                Nat.sub_self]
              rfl
            · show (st'.history2 ++
                  [strat2 st'.history2 st'.history1]).getD j "" = _
              rw [List.getD_append_right _ _ _ _ (le_of_eq hl2), hl2,
                Nat.sub_self]
              rfl

/-- C6: before round `k` of a match (given rounds `1..k-1` completed with
state `st`), both histories consist of exactly the moves of rounds `1..k-1`
in order; round `k`'s moves are each side's strategy applied to its own
history first and its opponent's second; and the post-round state appends
each side's move to its own history only after the round's payoff has been
added to the scores. -/
theorem play_rounds_history_invariant (strat1 strat2 : Strat)
    (payoff_matrix : List ((String × String) × (Int × Int))) (R k : Nat)
    (st : MatchState) (hk1 : 1 ≤ k) (hkR : k ≤ R)
    (hst : stateAfter strat1 strat2 payoff_matrix (k - 1) = some st) :
    st.history1.length = k - 1 ∧ st.history2.length = k - 1 ∧
    (∀ j, j < k - 1 →
      ∃ mv, roundMoves strat1 strat2 payoff_matrix (j + 1) = some mv ∧
        st.history1.getD j "" = mv.1 ∧ st.history2.getD j "" = mv.2) ∧
    roundMoves strat1 strat2 payoff_matrix k =
      some (strat1 st.history1 st.history2,
            strat2 st.history2 st.history1) ∧
    ∀ payoff, dictLookup payoff_matrix
        (strat1 st.history1 st.history2,
         strat2 st.history2 st.history1) = some payoff →
      stateAfter strat1 strat2 payoff_matrix k =
        some ⟨st.history1 ++ [strat1 st.history1 st.history2],
              st.history2 ++ [strat2 st.history2 st.history1],
              st.score1 + payoff.1, st.score2 + payoff.2⟩ := by
  obtain ⟨hl1, hl2, hprev⟩ :=
    stateAfter_histories strat1 strat2 payoff_matrix (k - 1) st hst
  refine ⟨hl1, hl2, hprev, ?_, ?_⟩
  · rw [roundMoves, hst, Option.map_some']
  · intro payoff hpay
    have hk : k - 1 + 1 = k := Nat.succ_pred_eq_of_pos hk1
    rw [← hk, stateAfter, hst]
    simp only [Option.some_bind, matchStep, hpay]

/-- Witness for C6 at tit-for-tat vs always-defect, `R = 2`, round `k = 2`,
whose pre-round state after round 1 is histories `(["C"], ["D"])` with
scores `(0, 5)`. -/
theorem play_rounds_history_invariant_witness :
    (1 ≤ 2 ∧ 2 ≤ 2 ∧
      stateAfter tit_for_tat always_defect PD_PAYOFFS 1 =
        some ⟨["C"], ["D"], 0, 5⟩) ∧
    roundMoves tit_for_tat always_defect PD_PAYOFFS 2 = some ("D", "D") := by
  refine ⟨⟨by decide, by decide, rfl⟩, ?_⟩
  have h := play_rounds_history_invariant tit_for_tat always_defect
    PD_PAYOFFS 2 2 ⟨["C"], ["D"], 0, 5⟩ (by decide) (by decide) rfl
  exact h.2.2.2.1

/-- One loop iteration fails exactly when the move pair computed from the
current histories is not a key of the payoff table. -/
theorem matchStep_eq_none_iff (strat1 strat2 : Strat)
    (payoff_matrix : List ((String × String) × (Int × Int)))
    (st : MatchState) :
    matchStep strat1 strat2 payoff_matrix st = none ↔
      dictLookup payoff_matrix
        (strat1 st.history1 st.history2,
         strat2 st.history2 st.history1) = none := by
  simp only [matchStep]
  cases h : dictLookup payoff_matrix
      (strat1 st.history1 st.history2,
       strat2 st.history2 st.history1) <;> simp [h]

/-- The match state is lost (`none`) after `R` rounds exactly when some
reached round's move pair is missing from the payoff table. -/
theorem stateAfter_eq_none_iff (strat1 strat2 : Strat)
    (payoff_matrix : List ((String × String) × (Int × Int))) (R : Nat) :
    stateAfter strat1 strat2 payoff_matrix R = none ↔
      ∃ k, 1 ≤ k ∧ k ≤ R ∧ ∃ st,
        stateAfter strat1 strat2 payoff_matrix (k - 1) = some st ∧
        dictLookup payoff_matrix
          (strat1 st.history1 st.history2,
           strat2 st.history2 st.history1) = none := by
  induction R with
  | zero =>
      simp only [stateAfter]
      constructor
      · intro h; cases h
      · rintro ⟨k, hk1, hk0, -⟩; omega
  | succ R ih =>
      rw [stateAfter]
      cases hR : stateAfter strat1 strat2 payoff_matrix R with
      | none =>
          simp only [Option.none_bind, true_iff]
          obtain ⟨k, hk1, hkR, st, hst, hfail⟩ := ih.mp hR
          exact ⟨k, hk1, Nat.le_succ_of_le hkR, st, hst, hfail⟩
      | some st =>
          simp only [Option.some_bind]
          rw [matchStep_eq_none_iff]
          constructor
          · intro hfail
            exact ⟨R + 1, Nat.succ_le_succ (Nat.zero_le R), le_refl _, st,
              by rw [Nat.add_sub_cancel]; exact hR, hfail⟩
          · rintro ⟨k, hk1, hkR1, st', hst', hfail⟩
            rcases Nat.lt_succ_iff_lt_or_eq.mp
                (Nat.lt_succ_of_le (Nat.le_of_succ_le_succ
                  (Nat.succ_le_succ hkR1))) with h | h
            · rcases Nat.lt_or_ge k (R + 1) with hlt | hge
              · have : stateAfter strat1 strat2 payoff_matrix R = none :=
                  ih.mpr ⟨k, hk1, Nat.le_of_lt_succ hlt, st', hst', hfail⟩
                rw [hR] at this; cases this
              · have hk : k = R + 1 := le_antisymm hkR1 hge
                subst hk
                rw [Nat.add_sub_cancel, hR] at hst'
                cases hst'
                exact hfail
            · rcases Nat.lt_or_ge k (R + 1) with hlt | hge
              · have : stateAfter strat1 strat2 payoff_matrix R = none :=
                  ih.mpr ⟨k, hk1, Nat.le_of_lt_succ hlt, st', hst', hfail⟩
                rw [hR] at this; cases this
              · have hk : k = R + 1 := le_antisymm hkR1 hge
                subst hk
                rw [Nat.add_sub_cancel, hR] at hst'
                cases hst'
                exact hfail

/-- C7: `play_rounds` fails (returning no scores, the embedding of the
`KeyError` raised by the payoff lookup) if and only if some reached round's
ordered move pair is not a key of the payoff table — the first failing round
is reached with all earlier rounds completed, and a match all of whose move
pairs are in the table completes without error. -/
theorem play_rounds_error_iff (strat1 strat2 : Strat)
    (payoff_matrix : List ((String × String) × (Int × Int))) (R : Nat) :
    play_rounds strat1 strat2 R payoff_matrix = none ↔
      ∃ k, 1 ≤ k ∧ k ≤ R ∧ ∃ st,
        stateAfter strat1 strat2 payoff_matrix (k - 1) = some st ∧
        dictLookup payoff_matrix
          (strat1 st.history1 st.history2,
           strat2 st.history2 st.history1) = none := by
  rw [play_rounds, Option.map_eq_none']
  exact stateAfter_eq_none_iff strat1 strat2 payoff_matrix R

theorem replicate_getLast? (n : Nat) (a : String) :
    (List.replicate (n + 1) a).getLast? = some a := by
  rw [List.replicate_succ', List.getLast?_concat]

/-- Closed form for the state of a tit-for-tat vs always-defect match after
`m + 1` rounds: tit-for-tat opened with `C`, then mirrored the defector. -/
theorem tft_defect_state (m : Nat) :
    stateAfter tit_for_tat always_defect PD_PAYOFFS (m + 1) =
      some ⟨"C" :: List.replicate m "D", List.replicate (m + 1) "D",
            (m : Int), 5 + (m : Int)⟩ := by
  induction m with
  | zero => rfl
  | succ m ih =>
      rw [stateAfter, ih, Option.some_bind]
      simp only [matchStep, tit_for_tat, always_defect,
        replicate_getLast?]
      simp [dictLookup, PD_PAYOFFS, MatchState.mk.injEq,
        List.replicate_succ', add_assoc]

/-- C3: in a match of tit-for-tat (first side) against always-defect (second
side) over the Prisoner's Dilemma table, round 1 plays `(C, D)` whose payoff
is `(0, 5)`, every later round `k ≤ R` plays `(D, D)` whose payoff is
`(1, 1)`, and after `R ≥ 1` rounds the returned scores are exactly
`(R - 1, 5 + (R - 1))`. -/
theorem tit_for_tat_vs_defect_match (R : Nat) (hR : 1 ≤ R) :
    play_rounds tit_for_tat always_defect R PD_PAYOFFS =
      some ((R : Int) - 1, 5 + ((R : Int) - 1)) ∧
    roundMoves tit_for_tat always_defect PD_PAYOFFS 1 = some ("C", "D") ∧
    dictLookup PD_PAYOFFS ("C", "D") = some (0, 5) ∧
    dictLookup PD_PAYOFFS ("D", "D") = some (1, 1) ∧
    ∀ k, 2 ≤ k → k ≤ R →
      roundMoves tit_for_tat always_defect PD_PAYOFFS k =
        some ("D", "D") := by
  obtain ⟨m, rfl⟩ : ∃ m, R = m + 1 := ⟨R - 1, by omega⟩
  refine ⟨?_, rfl, rfl, rfl, ?_⟩
  · rw [play_rounds, tft_defect_state, Option.map_some']
    have h1 : ((m + 1 : Nat) : Int) - 1 = (m : Int) := by push_cast; ring
    rw [h1]
  · intro k hk2 hkR
    obtain ⟨j, rfl⟩ : ∃ j, k = j + 2 := ⟨k - 2, by omega⟩
    rw [roundMoves, show j + 2 - 1 = j + 1 from rfl, tft_defect_state,
      Option.map_some']
    simp [tit_for_tat, always_defect, replicate_getLast?]

theorem addTo_keys (t : List (String × Int)) (n : String) (v : Int) :
    (addTo t n v).map Prod.fst = t.map Prod.fst := by
  induction t with
  | nil => rfl
  | cons e rest ih =>
      simp only [addTo, List.map_cons] at ih ⊢
      by_cases h : e.1 = n <;> simp [h, ih]

theorem addTo_cons (a : String) (b : Int) (t : List (String × Int))
    (n : String) (v : Int) :
    addTo ((a, b) :: t) n v =
      (if a = n then (a, b + v) else (a, b)) :: addTo t n v := rfl

theorem lookupTotal_cons (a : String) (b : Int) (t : List (String × Int))
    (m : String) :
    lookupTotal ((a, b) :: t) m = if a = m then b else lookupTotal t m := by
  by_cases h : a = m <;> simp [lookupTotal, dictLookup, h]

theorem lookupTotal_addTo (t : List (String × Int)) (n : String) (v : Int)
    (m : String) :
    lookupTotal (addTo t n v) m =
      if n = m ∧ n ∈ t.map Prod.fst then lookupTotal t m + v
      else lookupTotal t m := by
  induction t with
  | nil => simp [addTo, lookupTotal, dictLookup]
  | cons e rest ih =>
      obtain ⟨a, b⟩ := e
      by_cases he : a = n
      · subst he
        by_cases hm : a = m
        · subst hm
          simp [addTo_cons, lookupTotal_cons]
        · simp [addTo_cons, lookupTotal_cons, hm, ih]
      · have hne : ¬ (n = a) := fun hh => he hh.symm
        by_cases hm : a = m
        · subst hm
          simp [addTo_cons, lookupTotal_cons, he, hne]
        · simp only [addTo_cons, if_neg he, lookupTotal_cons, if_neg hm, ih,
            List.map_cons]
          have hiff : (n = m ∧ n ∈ a :: List.map Prod.fst rest) ↔
              (n = m ∧ n ∈ List.map Prod.fst rest) := by
            constructor
            · rintro ⟨h1, h2⟩
              rcases List.mem_cons.mp h2 with h3 | h3
              · exact absurd h3 hne
              · exact ⟨h1, h3⟩
            · rintro ⟨h1, h2⟩
              exact ⟨h1, List.mem_cons_of_mem a h2⟩
          rw [if_congr hiff rfl rfl]

theorem lookupTotal_addTo_mem (t : List (String × Int)) (n : String)
    (v : Int) (m : String) (hmem : n ∈ t.map Prod.fst) :
    lookupTotal (addTo t n v) m =
      if n = m then lookupTotal t m + v else lookupTotal t m := by
  rw [lookupTotal_addTo]
  by_cases h : n = m
  · rw [if_pos ⟨h, hmem⟩, if_pos h]
  · rw [if_neg (fun hc : n = m ∧ n ∈ t.map Prod.fst => h hc.1), if_neg h]

theorem mem_combinations {α : Type} (l : List α) (pr : α × α)
    (h : pr ∈ combinations l) : pr.1 ∈ l ∧ pr.2 ∈ l := by
  induction l with
  | nil => cases h
  | cons x xs ih =>
      rw [combinations, List.mem_append] at h
      rcases h with h | h
      · rw [List.mem_map] at h
        obtain ⟨y, hy, rfl⟩ := h
        exact ⟨List.mem_cons_self x xs, List.mem_cons_of_mem x hy⟩
      · obtain ⟨h1, h2⟩ := ih h
        exact ⟨List.mem_cons_of_mem x h1, List.mem_cons_of_mem x h2⟩

/-- Two strategies that honour the `C`/`D` alphabet never hit a missing key
of the Prisoner's Dilemma table. -/
theorem stateAfter_isSome_of_legal (s1 s2 : Strat)
    (h1 : playsLegalMoves s1) (h2 : playsLegalMoves s2) (r : Nat) :
    ∃ st, stateAfter s1 s2 PD_PAYOFFS r = some st := by
  induction r with
  | zero => exact ⟨_, rfl⟩
  | succ r ih =>
      obtain ⟨st, hst⟩ := ih
      have hsome : (matchStep s1 s2 PD_PAYOFFS st).isSome := by
        simp only [matchStep]
        rcases h1 st.history1 st.history2 with hm1 | hm1 <;>
          rcases h2 st.history2 st.history1 with hm2 | hm2 <;>
            rw [hm1, hm2] <;> rfl
      rw [stateAfter, hst, Option.some_bind]
      exact Option.isSome_iff_exists.mp hsome

theorem play_rounds_legal_isSome (s1 s2 : Strat)
    (h1 : playsLegalMoves s1) (h2 : playsLegalMoves s2) (r : Nat) :
    ∃ sc, play_rounds s1 s2 r PD_PAYOFFS = some sc := by
  obtain ⟨st, hst⟩ := stateAfter_isSome_of_legal s1 s2 h1 h2 r
  exact ⟨_, by rw [play_rounds, hst, Option.map_some']⟩

/-- Effect of the pairs loop on the totals: keys are preserved and each name
gains exactly its side's score from every pair naming it. -/
theorem pairPhase_spec (r : Nat)
    (pairs : List ((String × Strat) × (String × Strat))) :
    ∀ totals : List (String × Int),
      (∀ pr ∈ pairs, playsLegalMoves pr.1.2 ∧ playsLegalMoves pr.2.2) →
      (∀ pr ∈ pairs, pr.1.1 ∈ totals.map Prod.fst ∧
        pr.2.1 ∈ totals.map Prod.fst) →
      ∃ t', pairPhase r pairs totals = some t' ∧
        t'.map Prod.fst = totals.map Prod.fst ∧
        ∀ m, lookupTotal t' m = lookupTotal totals m +
          ((pairs.map (fun pr =>
            (if pr.1.1 = m then (pairScore pr r).1 else 0) +
            (if pr.2.1 = m then (pairScore pr r).2 else 0))).sum) := by
  induction pairs with
  | nil => exact fun totals _ _ => ⟨totals, rfl, rfl, by simp⟩
  | cons pr rest ih =>
      intro totals hleg hmem
      obtain ⟨sc, hsc⟩ := play_rounds_legal_isSome pr.1.2 pr.2.2
        (hleg pr (List.mem_cons_self pr rest)).1
        (hleg pr (List.mem_cons_self pr rest)).2 r
      have hmem1 : pr.1.1 ∈ totals.map Prod.fst :=
        (hmem pr (List.mem_cons_self pr rest)).1
      have hmem2 : pr.2.1 ∈ totals.map Prod.fst :=
        (hmem pr (List.mem_cons_self pr rest)).2
      set t1 := addTo (addTo totals pr.1.1 sc.1) pr.2.1 sc.2 with ht1def
      have hk1 : t1.map Prod.fst = totals.map Prod.fst := by
        rw [ht1def, addTo_keys, addTo_keys]
      obtain ⟨t', ht', hkeys, hsum⟩ := ih t1
        (fun q hq => hleg q (List.mem_cons_of_mem pr hq))
        (fun q hq => by
          rw [hk1]
          exact hmem q (List.mem_cons_of_mem pr hq))
      refine ⟨t', ?_, hkeys.trans hk1, ?_⟩
      · rw [pairPhase, hsc]
        exact ht'
      · intro m
        have hl1 : lookupTotal t1 m = lookupTotal totals m +
            ((if pr.1.1 = m then sc.1 else 0) +
             (if pr.2.1 = m then sc.2 else 0)) := by
          have hmem2' : pr.2.1 ∈ (addTo totals pr.1.1 sc.1).map Prod.fst := by
            rw [addTo_keys]
            exact hmem2
          rw [ht1def, lookupTotal_addTo_mem _ _ _ _ hmem2',
            lookupTotal_addTo_mem _ _ _ _ hmem1]
          by_cases hq1 : pr.1.1 = m <;> by_cases hq2 : pr.2.1 = m <;>
            simp [hq1, hq2] <;> ring
        have hps : pairScore pr r = sc := by
          rw [pairScore, hsc]
          rfl
        rw [hsum m, hl1, List.map_cons, List.sum_cons, hps]
        ring

/-- Effect of the self-play loop on the totals: keys are preserved and each
name gains exactly its own-side self-play score. -/
theorem selfPhase_spec (r : Nat) (reg : List (String × Strat)) :
    ∀ totals : List (String × Int),
      (∀ ns ∈ reg, playsLegalMoves ns.2) →
      (∀ ns ∈ reg, ns.1 ∈ totals.map Prod.fst) →
      ∃ t', selfPhase r reg totals = some t' ∧
        t'.map Prod.fst = totals.map Prod.fst ∧
        ∀ m, lookupTotal t' m = lookupTotal totals m +
          ((reg.map (fun ns =>
            if ns.1 = m then selfScore ns.2 r else 0)).sum) := by
  induction reg with
  | nil => exact fun totals _ _ => ⟨totals, rfl, rfl, by simp⟩
  | cons ns rest ih =>
      intro totals hleg hmem
      obtain ⟨sc, hsc⟩ := play_rounds_legal_isSome ns.2 ns.2
        (hleg ns (List.mem_cons_self ns rest))
        (hleg ns (List.mem_cons_self ns rest)) r
      have hmem1 : ns.1 ∈ totals.map Prod.fst :=
        hmem ns (List.mem_cons_self ns rest)
      obtain ⟨t', ht', hkeys, hsum⟩ := ih (addTo totals ns.1 sc.1)
        (fun q hq => hleg q (List.mem_cons_of_mem ns hq))
        (fun q hq => by
          rw [addTo_keys]
          exact hmem q (List.mem_cons_of_mem ns hq))
      refine ⟨t', ?_, hkeys.trans (addTo_keys totals ns.1 sc.1), ?_⟩
      · rw [selfPhase, hsc]
        exact ht'
      · intro m
        have hss : selfScore ns.2 r = sc.1 := by
          rw [selfScore, hsc]
          rfl
        have hl1 : lookupTotal (addTo totals ns.1 sc.1) m =
            lookupTotal totals m + (if ns.1 = m then sc.1 else 0) := by
          rw [lookupTotal_addTo_mem _ _ _ _ hmem1]
          by_cases hq : ns.1 = m <;> simp [hq]
        rw [hsum m, hl1, List.map_cons, List.sum_cons, hss]
        ring

theorem sum_ite_eq_zero (l : List (String × Strat)) (key : String)
    (f : String × Strat → Int) (h : key ∉ l.map Prod.fst) :
    (l.map (fun ms => if ms.1 = key then f ms else 0)).sum = 0 := by
  induction l with
  | nil => rfl
  | cons e rest ih =>
      rw [List.map_cons, List.mem_cons, not_or] at h
      rw [List.map_cons, List.sum_cons, if_neg (fun hh => h.1 hh.symm),
        ih h.2, add_zero]

theorem sum_ite_single (reg : List (String × Strat))
    (hnd : (reg.map Prod.fst).Nodup) (ns : String × Strat)
    (hmem : ns ∈ reg) (f : String × Strat → Int) :
    (reg.map (fun ms => if ms.1 = ns.1 then f ms else 0)).sum = f ns := by
  induction reg with
  | nil => cases hmem
  | cons e rest ih =>
      rw [List.map_cons, List.nodup_cons] at hnd
      rcases List.mem_cons.mp hmem with rfl | h
      · rw [List.map_cons, List.sum_cons, if_pos rfl,
          sum_ite_eq_zero rest ns.1 f hnd.1, add_zero]
      · have hne : e.1 ≠ ns.1 := fun hh => hnd.1 (by
          rw [hh]
          exact List.mem_map_of_mem Prod.fst h)
        rw [List.map_cons, List.sum_cons, if_neg hne, ih hnd.2 h, zero_add]

theorem lookupTotal_init (reg : List (String × Strat)) (m : String) :
    lookupTotal (reg.map (fun ns => (ns.1, (0 : Int)))) m = 0 := by
  induction reg with
  | nil => rfl
  | cons ns rest ih =>
      by_cases h : ns.1 = m <;>
        simpa [lookupTotal, dictLookup, h] using ih

/-- C2: for a registry with distinct names whose strategies honour the move
alphabet, the tournament returns a totals map whose keys are exactly the
registered names (zero stays for a name that earns no points), in which each
strategy's total is the sum of its side's scores over its cross pairings
(each unordered pair contributing once) plus its own-side self-play
score. -/
theorem tournament_totals_spec (reg : List (String × Strat)) (r : Nat)
    (hnd : (reg.map Prod.fst).Nodup)
    (hleg : ∀ ns ∈ reg, playsLegalMoves ns.2) :
    ∃ totals, tournament reg r = some totals ∧
      totals.map Prod.fst = reg.map Prod.fst ∧
      ∀ ns ∈ reg, lookupTotal totals ns.1 =
        crossTotal reg r ns.1 + selfScore ns.2 r := by
  have hkinit : (reg.map (fun ns => (ns.1, (0 : Int)))).map Prod.fst =
      reg.map Prod.fst := by
    rw [List.map_map]
    rfl
  obtain ⟨t1, ht1, hk1, hs1⟩ := pairPhase_spec r (combinations reg)
    (reg.map (fun ns => (ns.1, (0 : Int))))
    (fun pr hpr => ⟨hleg pr.1 (mem_combinations reg pr hpr).1,
                    hleg pr.2 (mem_combinations reg pr hpr).2⟩)
    (fun pr hpr => ⟨by
        rw [hkinit]
        exact List.mem_map_of_mem Prod.fst (mem_combinations reg pr hpr).1,
      by
        rw [hkinit]
        exact List.mem_map_of_mem Prod.fst (mem_combinations reg pr hpr).2⟩)
  obtain ⟨t2, ht2, hk2, hs2⟩ := selfPhase_spec r reg t1
    (fun ns hns => hleg ns hns)
    (fun ns hns => by
      rw [hk1, hkinit]
      exact List.mem_map_of_mem Prod.fst hns)
  refine ⟨t2, ?_, (hk2.trans hk1).trans hkinit, ?_⟩
  · rw [tournament, ht1]
    exact ht2
  · intro ns hns
    rw [hs2 ns.1, hs1 ns.1, lookupTotal_init, zero_add]
    congr 1
    exact sum_ite_single reg hnd ns hns (fun ms => selfScore ms.2 r)

/-- Witness for C2 at a two-entry registry over two rounds. -/
theorem tournament_totals_spec_witness :
    ((["coop", "defect"] : List String).Nodup ∧
      (∀ ns ∈ ([("coop", always_cooperate), ("defect", always_defect)] :
          List (String × Strat)), playsLegalMoves ns.2)) ∧
    ∃ totals,
      tournament [("coop", always_cooperate), ("defect", always_defect)] 2 =
        some totals ∧
      totals.map Prod.fst = ["coop", "defect"] ∧
      ∀ ns ∈ ([("coop", always_cooperate), ("defect", always_defect)] :
          List (String × Strat)),
        lookupTotal totals ns.1 =
          crossTotal [("coop", always_cooperate),
            ("defect", always_defect)] 2 ns.1 + selfScore ns.2 2 := by
  have hleg : ∀ ns ∈ ([("coop", always_cooperate),
      ("defect", always_defect)] : List (String × Strat)),
      playsLegalMoves ns.2 := by
    intro ns hns h1 h2
    rcases List.mem_cons.mp hns with rfl | hns'
    · exact Or.inl rfl
    · rcases List.mem_cons.mp hns' with rfl | hns''
      · exact Or.inr rfl
      · cases hns''
  exact ⟨⟨by decide, hleg⟩,
    tournament_totals_spec
      [("coop", always_cooperate), ("defect", always_defect)] 2
      (by decide) hleg⟩

/-- Witness for C3 at `R = 3`: tit-for-tat scores `2`, the defector `7`. -/
theorem tit_for_tat_vs_defect_match_witness :
    1 ≤ 3 ∧
    play_rounds tit_for_tat always_defect 3 PD_PAYOFFS = some (2, 7) := by
  refine ⟨by decide, ?_⟩
  have h := (tit_for_tat_vs_defect_match 3 (by decide)).1
  norm_num at h
  exact h

theorem chooseStrategy_mem (options : List String) (k : Nat)
    (h : options ≠ []) : chooseStrategy options k ∈ options := by
  have hlen : 0 < options.length := List.length_pos.mpr h
  have hlt : k % options.length < options.length := Nat.mod_lt k hlen
  rw [chooseStrategy, List.getD_eq_getElem _ _ hlt]
  exact List.getElem_mem hlt

theorem profileFrom_mem (strategies : String → List String)
    (rng : Nat → Nat → Nat) (r : Nat) (ps : List String) :
    ∀ i : Nat, (∀ p ∈ ps, strategies p ≠ []) →
      profileFrom strategies rng r ps i ∈ listProd (ps.map strategies) := by
  induction ps with
  | nil => exact fun i _ => List.mem_singleton.mpr rfl
  | cons p rest ih =>
      intro i hne
      rw [profileFrom, List.map_cons, listProd, List.mem_flatMap]
      refine ⟨chooseStrategy (strategies p) (rng r i),
        chooseStrategy_mem _ _ (hne p (List.mem_cons_self p rest)), ?_⟩
      rw [List.mem_map]
      exact ⟨profileFrom strategies rng r rest (i + 1),
        ih (i + 1) (fun q hq => hne q (List.mem_cons_of_mem p hq)), rfl⟩

theorem addPayoffs_keys (ps : List String) :
    ∀ (payoff : List Int) (totals : List (String × Int)),
      (addPayoffs ps payoff totals).map Prod.fst = totals.map Prod.fst := by
  induction ps with
  | nil => exact fun _ _ => rfl
  | cons p rest ih =>
      intro payoff totals
      rw [addPayoffs, ih, addTo_keys]

theorem lookupTotal_addPayoffs (ps : List String) :
    ∀ (payoff : List Int) (totals : List (String × Int)) (m : String),
      (∀ p ∈ ps, p ∈ totals.map Prod.fst) →
      lookupTotal (addPayoffs ps payoff totals) m =
        lookupTotal totals m + componentSum ps payoff m := by
  induction ps with
  | nil => intro payoff totals m _; simp [addPayoffs, componentSum]
  | cons p rest ih =>
      intro payoff totals m hsub
      rw [addPayoffs, componentSum,
        ih _ _ m (fun q hq => by
          rw [addTo_keys]
          exact hsub q (List.mem_cons_of_mem p hq)),
        lookupTotal_addTo_mem _ _ _ _ (hsub p (List.mem_cons_self p rest))]
      by_cases hq : p = m <;> simp [hq] <;> ring

theorem componentSum_not_mem (ps : List String) :
    ∀ (payoff : List Int) (m : String), m ∉ ps →
      componentSum ps payoff m = 0 := by
  induction ps with
  | nil => exact fun _ _ _ => rfl
  | cons p rest ih =>
      intro payoff m h
      rw [List.mem_cons, not_or] at h
      rw [componentSum, if_neg (fun hh => h.1 hh.symm), ih _ m h.2,
        zero_add]

theorem componentSum_getD (players : List String) :
    ∀ (payoff : List Int) (i : Nat), players.Nodup →
      i < players.length →
      componentSum players payoff (players.getD i "") =
        payoff.getD i 0 := by
  induction players with
  | nil => intro payoff i _ hi; simp at hi
  | cons p rest ih =>
      intro payoff i hnd hi
      rw [List.nodup_cons] at hnd
      cases i with
      | zero =>
          show componentSum (p :: rest) payoff p = payoff.getD 0 0
          rw [componentSum, if_pos rfl,
            componentSum_not_mem rest _ p hnd.1, add_zero]
          cases payoff <;> rfl
      | succ i =>
          show componentSum (p :: rest) payoff (rest.getD i "") = _
          have hi' : i < rest.length := by
            rw [List.length_cons] at hi
            omega
          have hmem : rest.getD i "" ∈ rest := by
            rw [List.getD_eq_getElem _ _ hi']
            exact List.getElem_mem hi'
          rw [componentSum,
            if_neg (fun hh => hnd.1 (by rw [hh]; exact hmem)), zero_add,
            ih _ i hnd.2 hi']
          cases payoff <;> rfl

theorem lookupTotal_zero_init (players : List String) (m : String) :
    lookupTotal (players.map (fun p => (p, (0 : Int)))) m = 0 := by
  induction players with
  | nil => rfl
  | cons p rest ih =>
      by_cases h : p = m <;> simpa [lookupTotal, dictLookup, h] using ih

theorem simLoop_spec (players : List String)
    (strategies : String → List String)
    (payoffs : List (List String × List Int)) (rng : Nat → Nat → Nat)
    (hne : ∀ p ∈ players, strategies p ≠ [])
    (hcomp : ∀ q ∈ listProd (players.map strategies),
      (dictLookup payoffs q).isSome) :
    ∀ (rem r : Nat) (hist : List (List String × List Int))
      (totals : List (String × Int)),
      (∀ p ∈ players, p ∈ totals.map Prod.fst) →
      ∃ ext totals',
        simLoop players strategies payoffs rng r rem hist totals =
          some (hist ++ ext, totals') ∧
        ext.length = rem ∧
        (∀ e ∈ ext, e.1 ∈ listProd (players.map strategies) ∧
          dictLookup payoffs e.1 = some e.2) ∧
        totals'.map Prod.fst = totals.map Prod.fst ∧
        ∀ m, lookupTotal totals' m = lookupTotal totals m +
          ((ext.map (fun e => componentSum players e.2 m)).sum) := by
  intro rem
  induction rem with
  | zero =>
      intro r hist totals _
      exact ⟨[], totals, by simp [simLoop], rfl, by simp, rfl, by simp⟩
  | succ rem ih =>
      intro r hist totals hsub
      have hqmem : roundProfile players strategies rng r ∈
          listProd (players.map strategies) :=
        profileFrom_mem strategies rng r players 0 hne
      obtain ⟨payoff, hpay⟩ :=
        Option.isSome_iff_exists.mp (hcomp _ hqmem)
      obtain ⟨ext, totals', hrun, hlen, hprops, hkeys, hsum⟩ :=
        ih (r + 1)
          (hist ++ [(roundProfile players strategies rng r, payoff)])
          (addPayoffs players payoff totals)
          (fun p hp => by
            rw [addPayoffs_keys]
            exact hsub p hp)
      refine ⟨(roundProfile players strategies rng r, payoff) :: ext,
        totals', ?_, by simp [hlen], ?_, ?_, ?_⟩
      · rw [simLoop, hpay]
        show simLoop players strategies payoffs rng (r + 1) rem
            (hist ++ [(roundProfile players strategies rng r, payoff)])
            (addPayoffs players payoff totals) =
          some (hist ++ (roundProfile players strategies rng r, payoff) ::
            ext, totals')
        rw [hrun, List.append_assoc, List.singleton_append]
      · intro e he
        rcases List.mem_cons.mp he with rfl | he'
        · exact ⟨hqmem, hpay⟩
        · exact hprops e he'
      · rw [hkeys, addPayoffs_keys]
      · intro m
        rw [hsum m, lookupTotal_addPayoffs players _ _ m hsub,
          List.map_cons, List.sum_cons]
        ring

/-- C8: for a well-formed game (distinct players, nonempty strategy sets,
complete and arity-correct payoff table), `simulate` returns a log of
exactly `R` entries, each pairing a drawn profile from the Cartesian
product with the table's payoff vector at that profile, together with
per-player totals in which player `i`'s total is the sum of the `i`-th
payoff components over the log. -/
theorem simulate_spec (players : List String)
    (strategies : String → List String)
    (payoffs : List (List String × List Int)) (R : Nat)
    (rng : Nat → Nat → Nat)
    (hnd : players.Nodup)
    (hne : ∀ p ∈ players, strategies p ≠ [])
    (harity : ∀ qv ∈ payoffs, qv.2.length = players.length)
    (hcomp : ∀ q ∈ listProd (players.map strategies),
      (dictLookup payoffs q).isSome) :
    ∃ hist totals,
      simulate players strategies payoffs R rng = some (hist, totals) ∧
      hist.length = R ∧
      (∀ e ∈ hist, e.1 ∈ listProd (players.map strategies) ∧
        dictLookup payoffs e.1 = some e.2) ∧
      ∀ i, i < players.length →
        lookupTotal totals (players.getD i "") =
          ((hist.map (fun e => e.2.getD i 0)).sum) := by
  clear harity
  obtain ⟨ext, totals', hrun, hlen, hprops, hkeys, hsum⟩ :=
    simLoop_spec players strategies payoffs rng hne hcomp R 0 []
      (players.map (fun p => (p, (0 : Int))))
      (fun p hp => by
        rw [List.map_map]
        exact List.mem_map_of_mem _ hp)
  rw [List.nil_append] at hrun
  refine ⟨ext, totals', hrun, hlen, hprops, ?_⟩
  intro i hi
  rw [hsum (players.getD i ""), lookupTotal_zero_init, zero_add]
  exact congrArg List.sum (List.map_congr_left (fun e _ =>
    componentSum_getD players e.2 i hnd hi))

/-- Witness for C8: the Prisoner's Dilemma game, two rounds, a concrete
injected randomness source. -/
theorem simulate_spec_witness :
    (pd_players.Nodup ∧
      (∀ p ∈ pd_players, pd_strategies p ≠ []) ∧
      (∀ qv ∈ pd_payoffs, qv.2.length = pd_players.length) ∧
      (∀ q ∈ listProd (pd_players.map pd_strategies),
        (dictLookup pd_payoffs q).isSome)) ∧
    ∃ hist totals,
      simulate pd_players pd_strategies pd_payoffs 2 (fun r i => r + i) =
        some (hist, totals) ∧
      hist.length = 2 ∧
      (∀ e ∈ hist, e.1 ∈ listProd (pd_players.map pd_strategies) ∧
        dictLookup pd_payoffs e.1 = some e.2) ∧
      ∀ i, i < pd_players.length →
        lookupTotal totals (pd_players.getD i "") =
          ((hist.map (fun e => e.2.getD i 0)).sum) :=
  ⟨⟨by decide, by decide, by decide, by decide⟩,
   simulate_spec pd_players pd_strategies pd_payoffs 2 (fun r i => r + i)
     (by decide) (by decide) (by decide) (by decide)⟩

theorem dictLookup_isSome_of_mem {α β : Type} [DecidableEq α]
    (d : List (α × β)) (k : α) (h : k ∈ d.map Prod.fst) :
    (dictLookup d k).isSome := by
  induction d with
  | nil => simp at h
  | cons e rest ih =>
      rw [dictLookup]
      by_cases he : e.1 = k
      · rw [if_pos he]; rfl
      · rw [if_neg he]
        rw [List.map_cons] at h
        rcases List.mem_cons.mp h with h' | h'
        · exact absurd h'.symm he
        · exact ih h'

theorem fillPayoffs_ok (n : Nat) :
    ∀ (profs : List (List String)) (vs : List (List Int))
      (pay : List (List String × List Int)),
      fillPayoffs n profs vs = .ok pay →
      pay.map Prod.fst = profs ∧ ∀ qv ∈ pay, qv.2.length = n := by
  intro profs
  induction profs with
  | nil =>
      intro vs pay h
      cases h
      exact ⟨rfl, fun qv hqv => absurd hqv (List.not_mem_nil qv)⟩
  | cons prof rest ih =>
      intro vs pay h
      cases vs with
      | nil => cases h
      | cons v vs' =>
          rw [fillPayoffs] at h
          by_cases hlen : v.length ≠ n
          · rw [if_pos hlen] at h; cases h
          · rw [if_neg hlen] at h
            cases hrec : fillPayoffs n rest vs' with
            | error e => rw [hrec] at h; cases h
            | ok rest' =>
                rw [hrec] at h
                cases h
                obtain ⟨h1, h2⟩ := ih vs' rest' hrec
                refine ⟨by rw [List.map_cons, h1], ?_⟩
                intro qv hqv
                rcases List.mem_cons.mp hqv with rfl | hqv'
                · exact not_ne_iff.mp hlen
                · exact h2 qv hqv'

theorem fillPayoffs_isOk (n : Nat) :
    ∀ (profs : List (List String)) (vs : List (List Int)),
      (∃ pay, fillPayoffs n profs vs = .ok pay) ↔
        (profs.length ≤ vs.length ∧
          ∀ v ∈ vs.take profs.length, v.length = n) := by
  intro profs
  induction profs with
  | nil =>
      intro vs
      constructor
      · intro _; exact ⟨Nat.zero_le _, by simp⟩
      · intro _; exact ⟨[], rfl⟩
  | cons prof rest ih =>
      intro vs
      cases vs with
      | nil =>
          constructor
          · rintro ⟨pay, h⟩; cases h
          · rintro ⟨h1, -⟩
            rw [List.length_cons, List.length_nil] at h1
            exact absurd h1 (by omega)
      | cons v vs' =>
          constructor
          · rintro ⟨pay, h⟩
            rw [fillPayoffs] at h
            by_cases hlen : v.length ≠ n
            · rw [if_pos hlen] at h; cases h
            · rw [if_neg hlen] at h
              cases hrec : fillPayoffs n rest vs' with
              | error e => rw [hrec] at h; cases h
              | ok rest' =>
                  obtain ⟨h1, h2⟩ := (ih vs').mp ⟨rest', hrec⟩
                  refine ⟨by
                    rw [List.length_cons, List.length_cons]
                    omega, ?_⟩
                  intro w hw
                  rw [List.length_cons, List.take_succ_cons] at hw
                  rcases List.mem_cons.mp hw with rfl | hw'
                  · exact not_ne_iff.mp hlen
                  · exact h2 w hw'
          · rintro ⟨h1, h2⟩
            have hvlen : v.length = n := h2 v (by
              rw [List.length_cons, List.take_succ_cons]
              exact List.mem_cons_self v _)
            obtain ⟨pay, hpay⟩ := (ih vs').mpr ⟨by
                rw [List.length_cons, List.length_cons] at h1
                omega,
              fun w hw => h2 w (by
                rw [List.length_cons, List.take_succ_cons]
                exact List.mem_cons_of_mem v hw)⟩
            refine ⟨(prof, v) :: pay, ?_⟩
            rw [fillPayoffs, if_neg (not_ne_iff.mpr hvlen), hpay]

/-- C4: construction validates eagerly.  A successfully constructed game
has `num_players` players, a payoff entry for every profile of the full
Cartesian product of the strategy sets, and every payoff vector of length
equal to the player count; and construction succeeds exactly when the
input supplies a well-sized vector for every profile, so a missing profile
or a mis-sized vector surfaces as an error at construction time, never on
a later lookup. -/
theorem input_game_validates (num_players : Nat)
    (inputs : List (List Int)) :
    (∀ players strat pay,
      input_game num_players inputs = .ok (players, strat, pay) →
      players.length = num_players ∧
      (∀ q ∈ listProd (players.map strat), (dictLookup pay q).isSome) ∧
      (∀ qv ∈ pay, qv.2.length = num_players)) ∧
    ((∃ g, input_game num_players inputs = .ok g) ↔
      ((listProd ((playerNames num_players).map
          (fun _ => DEFAULT_STRATEGIES))).length ≤ inputs.length ∧
        ∀ v ∈ inputs.take (listProd ((playerNames num_players).map
          (fun _ => DEFAULT_STRATEGIES))).length,
          v.length = num_players)) := by
  constructor
  · intro players strat pay h
    rw [input_game] at h
    cases hfp : fillPayoffs num_players
        (listProd ((playerNames num_players).map
          (fun _ => DEFAULT_STRATEGIES))) inputs with
    | error e => rw [hfp] at h; cases h
    | ok pay0 =>
        rw [hfp] at h
        injection h with h
        rw [Prod.mk.injEq, Prod.mk.injEq] at h
        obtain ⟨hA, hB, hC⟩ := h
        subst hA; subst hB; subst hC
        obtain ⟨hkeys, harity⟩ := fillPayoffs_ok num_players _ _ _ hfp
        refine ⟨by simp [playerNames], ?_, harity⟩
        intro q hq
        apply dictLookup_isSome_of_mem
        rw [hkeys]
        exact hq
  · constructor
    · rintro ⟨g, hg⟩
      rw [input_game] at hg
      cases hfp : fillPayoffs num_players
          (listProd ((playerNames num_players).map
            (fun _ => DEFAULT_STRATEGIES))) inputs with
      | error e => rw [hfp] at hg; cases hg
      | ok pay0 => exact (fillPayoffs_isOk num_players _ inputs).mp ⟨pay0, hfp⟩
    · intro hcond
      obtain ⟨pay0, hfp⟩ := (fillPayoffs_isOk num_players _ inputs).mpr hcond
      exact ⟨_, by rw [input_game, hfp]⟩

/-- Witness for C4: one player, both profiles supplied with well-sized
vectors — construction succeeds. -/
theorem input_game_validates_witness :
    ((listProd ((playerNames 1).map
        (fun _ => DEFAULT_STRATEGIES))).length ≤
          ([[2], [7]] : List (List Int)).length ∧
      ∀ v ∈ ([[2], [7]] : List (List Int)).take
          (listProd ((playerNames 1).map
            (fun _ => DEFAULT_STRATEGIES))).length,
        v.length = 1) ∧
    ∃ g, input_game 1 [[2], [7]] = Except.ok g := by
  refine ⟨⟨by decide, by decide⟩, ?_⟩
  exact (input_game_validates 1 [[2], [7]]).2.mpr ⟨by decide, by decide⟩

end GameTheory
